import Mathlib

/-!
Verification of the base64decode core (src/src/main.rs).

The two operations under study are `decode_text_raw` (called `decode_raw`
in the specification) and `decode_text` (called `decode_display`).  They
are embedded shallowly: Rust `u8` bytes become `Nat` values with explicit
`% 256` where a shift can overflow, the mutable byte vector becomes a
`List Nat` threaded through a recursive loop, and the `for` loop over
`text.chars()` becomes structural recursion over a `List Char`.
-/

set_option maxHeartbeats 1000000
set_option maxRecDepth 4000

namespace Base64Decode

/-- Embedding of `decode_single` from src/src/main.rs: the per-character
symbol lookup.  `original_char as u32` is `c.toNat`; the Rust range
checks `(0x41..=0x5a).contains(&c)` etc. become interval tests, `+` is
code 43, `/` is 47, `=` is 61.  The `u8` result is kept as a `Nat`. -/
def decode_single (c : Char) : Option Nat :=
  let n := c.toNat
  if 0x41 ≤ n ∧ n ≤ 0x5a then some (n - 0x41)
  else if 0x61 ≤ n ∧ n ≤ 0x7a then some (n - 0x61 + 26)
  else if 0x30 ≤ n ∧ n ≤ 0x39 then some (n - 0x30 + 52)
  else if n = 43 then some 62
  else if n = 47 then some 63
  else if n = 61 then some 0
  else none

/-- The UTF-8 width of one character, mirroring Rust `char::len_utf8`,
which underlies `str::len` (the `text.len()` call in `decode_text_raw`). -/
def charLen (c : Char) : Nat :=
  if c.toNat < 0x80 then 1
  else if c.toNat < 0x800 then 2
  else if c.toNat < 0x10000 then 3
  else 4

/-- The UTF-8 byte length of the input text: Rust `text.len()` on a `&str`. -/
def utf8Len (text : List Char) : Nat := (text.map charLen).sum

/-- OR a value into position `i` of the byte buffer, the embedding of
`values[i] |= v`.  (Out-of-range `List.set` is a no-op; in-boundedness of
every index the decoder uses is proved separately.) -/
def orAt (l : List Nat) (i v : Nat) : List Nat := l.set i (l.getD i 0 ||| v)

/-- Embedding of the `for c in text.chars()` loop body of
`decode_text_raw`: `current_bit` advances by 6 per character whether or
not the character decodes; a valid character with value `index` is ORed
into one byte (`bit_remainder <= 2`) or split across two bytes
(`bit_remainder > 2`).  The `u8` shifts are taken `% 256`. -/
def decodeLoop : List Char → Nat → List Nat → List Nat
  | [], _, values => values
  | c :: rest, current_bit, values =>
    let values' :=
      match decode_single c with
      | some index =>
        let current_byte := current_bit / 8
        let bit_remainder := current_bit % 8
        if bit_remainder > 2 then
          let v1 := orAt values current_byte (index >>> (bit_remainder - 2))
          orAt v1 (current_byte + 1) ((index <<< (10 - bit_remainder)) % 256)
        else
          orAt values current_byte ((index <<< (2 - bit_remainder)) % 256)
      | none => values
    decodeLoop rest (current_bit + 6) values'

/-- Embedding of `decode_text_raw`: the buffer is zero-initialized with
`total_bits / 8` full bytes plus one padding byte when `total_bits` is
not a multiple of 8, where `total_bits = text.len() * 6` counts six bits
per UTF-8 byte of the input string. -/
def decode_text_raw (text : List Char) : List Nat :=
  let total_bits := utf8Len text * 6
  let full_bytes := total_bits / 8
  let padding_bytes := if total_bits % 8 = 0 then 0 else 1
  decodeLoop text 0 (List.replicate (full_bytes + padding_bytes) 0)

/-- Embedding of the trailing-zero-trimming loop of `decode_text`:
repeatedly pop the last byte while it is zero. -/
def trimZeros (l : List Nat) : List Nat :=
  (l.reverse.dropWhile (fun b => b == 0)).reverse

/-- Lower bound of the first continuation byte admitted after lead byte
`b` in a multi-byte UTF-8 sequence (0xE0 and 0xF0 restrict it upward). -/
def contLo (b : Nat) : Nat :=
  if b = 0xE0 then 0xA0 else if b = 0xF0 then 0x90 else 0x80

/-- Upper bound of the first continuation byte admitted after lead byte
`b` in a multi-byte UTF-8 sequence (0xED and 0xF4 restrict it downward). -/
def contHi (b : Nat) : Nat :=
  if b = 0xED then 0x9F else if b = 0xF4 then 0x8F else 0xBF

/-- Fueled UTF-8 decoding with U+FFFD substitution of maximal subparts,
modelling Rust `String::from_utf8_lossy`.  Each step consumes at least
one byte, so fuel equal to the input length is enough; the fuel only
serves Lean's termination checker.  An ill-formed sequence contributes
one replacement character and decoding resumes at the first byte that
did not extend a valid prefix. -/
def utf8LossyGo : Nat → List Nat → List Char
  | 0, _ => []
  | _ + 1, [] => []
  | fuel + 1, b :: bs =>
    if b < 0x80 then Char.ofNat b :: utf8LossyGo fuel bs
    else if 0xC2 ≤ b ∧ b ≤ 0xDF then
      match bs with
      | [] => [Char.ofNat 0xFFFD]
      | b2 :: bs2 =>
        if 0x80 ≤ b2 ∧ b2 ≤ 0xBF then
          Char.ofNat ((b - 0xC0) * 64 + (b2 - 0x80)) :: utf8LossyGo fuel bs2
        else Char.ofNat 0xFFFD :: utf8LossyGo fuel bs
    else if 0xE0 ≤ b ∧ b ≤ 0xEF then
      match bs with
      | [] => [Char.ofNat 0xFFFD]
      | b2 :: bs2 =>
        if contLo b ≤ b2 ∧ b2 ≤ contHi b then
          match bs2 with
          | [] => [Char.ofNat 0xFFFD]
          | b3 :: bs3 =>
            if 0x80 ≤ b3 ∧ b3 ≤ 0xBF then
              Char.ofNat ((b - 0xE0) * 4096 + (b2 - 0x80) * 64 + (b3 - 0x80))
                :: utf8LossyGo fuel bs3
            else Char.ofNat 0xFFFD :: utf8LossyGo fuel bs2
        else Char.ofNat 0xFFFD :: utf8LossyGo fuel bs
    else if 0xF0 ≤ b ∧ b ≤ 0xF4 then
      match bs with
      | [] => [Char.ofNat 0xFFFD]
      | b2 :: bs2 =>
        if contLo b ≤ b2 ∧ b2 ≤ contHi b then
          match bs2 with
          | [] => [Char.ofNat 0xFFFD]
          | b3 :: bs3 =>
            if 0x80 ≤ b3 ∧ b3 ≤ 0xBF then
              match bs3 with
              | [] => [Char.ofNat 0xFFFD]
              | b4 :: bs4 =>
                if 0x80 ≤ b4 ∧ b4 ≤ 0xBF then
                  Char.ofNat ((b - 0xF0) * 262144 + (b2 - 0x80) * 4096 +
                      (b3 - 0x80) * 64 + (b4 - 0x80)) :: utf8LossyGo fuel bs4
                else Char.ofNat 0xFFFD :: utf8LossyGo fuel bs3
            else Char.ofNat 0xFFFD :: utf8LossyGo fuel bs2
        else Char.ofNat 0xFFFD :: utf8LossyGo fuel bs
    else Char.ofNat 0xFFFD :: utf8LossyGo fuel bs

/-- Lossy UTF-8 decoding of a byte buffer, modelling
`String::from_utf8_lossy(&values)`. -/
def utf8Lossy (l : List Nat) : List Char := utf8LossyGo l.length l

/-- Rust `char::is_ascii_graphic`: the printable range `'!'..='~'`. -/
def asciiGraphic (c : Char) : Bool := 0x21 ≤ c.toNat && c.toNat ≤ 0x7e

/-- `char::REPLACEMENT_CHARACTER`, U+FFFD. -/
def replacement_char : Char := Char.ofNat 0xFFFD

/-- The predicate of the sanitization pass of `decode_text`:
`!(c.is_ascii_graphic() || c == ' ')`. -/
def badChar (c : Char) : Bool := !(asciiGraphic c || c == ' ')

/-- Embedding of `str::replace` with a per-character pattern: every
character matching `p` is replaced by the string `rep`, all others are
kept. -/
def replaceChars (p : Char → Bool) (rep : List Char) (s : List Char) : List Char :=
  s.foldr (fun c acc => if p c then rep ++ acc else c :: acc) []

/-- Embedding of `decode_text` (the specification's `decode_display`):
decode to raw bytes, trim trailing zero bytes, decode the rest as lossy
UTF-8, and replace every non-printable character (not ASCII-graphic and
not a space) by the replacement character. -/
def decode_text (text : List Char) : List Char :=
  replaceChars badChar [replacement_char] (utf8Lossy (trimZeros (decode_text_raw text)))

/-- Specification-side description of the bytes one input character
writes, taken verbatim from the claim: a character with 6-bit value `v`
at running bit offset `b = 6 * k` with `r = b % 8` ORs `v <<< (2 - r)`
into byte `b / 8` when `r ≤ 2`, and otherwise ORs the high `8 - r` bits
`v >>> (r - 2)` into byte `b / 8` and the low `r - 2` bits of `v`,
shifted left by `10 - r`, into byte `b / 8 + 1`.  `writeVal k j v` is
the value ORed into byte `j`. -/
def writeVal (k j v : Nat) : Nat :=
  if 6 * k % 8 > 2 then
    (if 6 * k / 8 = j then v >>> (6 * k % 8 - 2) else 0) |||
      (if 6 * k / 8 + 1 = j then (v % 2 ^ (6 * k % 8 - 2)) <<< (10 - 6 * k % 8) else 0)
  else
    (if 6 * k / 8 = j then v <<< (2 - 6 * k % 8) else 0)

/-- Specification-side accumulated contribution to byte `j` of the
characters of `cs`, the first of which sits at character index `k` (bit
offset `6 * k`); an invalid character contributes nothing but still
advances the offset. -/
def contribFrom : List Char → Nat → Nat → Nat
  | [], _, _ => 0
  | c :: rest, k, j =>
    (match decode_single c with
     | some v => writeVal k j v
     | none => 0) ||| contribFrom rest (k + 1) j

/-- The contribution of the single character at index `k` of `text` to
byte `j` of the buffer. -/
def charContrib (text : List Char) (k j : Nat) : Nat :=
  match text[k]? with
  | some c =>
    match decode_single c with
    | some v => writeVal k j v
    | none => 0
  | none => 0

/-- The canonical base64 symbol for a 6-bit value. -/
def alphaChar (v : Nat) : Char :=
  Char.ofNat
    (if v < 26 then 65 + v
     else if v < 52 then 97 + (v - 26)
     else if v < 62 then 48 + (v - 52)
     else if v = 62 then 43
     else 47)

/-- Hand-rolled canonical base64 encoding of a byte sequence: four
symbols per three bytes, with `=` padding for a trailing group of one or
two bytes. -/
def encode : List Nat → List Char
  | [] => []
  | [b1] => [alphaChar (b1 / 4), alphaChar (b1 % 4 * 16), '=', '=']
  | [b1, b2] =>
    [alphaChar (b1 / 4), alphaChar (b1 % 4 * 16 + b2 / 16), alphaChar (b2 % 16 * 4), '=']
  | b1 :: b2 :: b3 :: rest =>
    alphaChar (b1 / 4) :: alphaChar (b1 % 4 * 16 + b2 / 16) ::
      alphaChar (b2 % 16 * 4 + b3 / 64) :: alphaChar (b3 % 64) :: encode rest

/-- A character the sanitized display string is allowed to contain:
ASCII graphic, the plain space, or the replacement marker. -/
def displayable (c : Char) : Prop :=
  asciiGraphic c = true ∨ c = ' ' ∨ c = replacement_char

/-- `orAt` never changes the buffer length. -/
theorem orAt_length (l : List Nat) (i v : Nat) : (orAt l i v).length = l.length := by
  simp [orAt]

/-- The decoding loop never changes the buffer length. -/
theorem decodeLoop_length (cs : List Char) :
    ∀ (b : Nat) (values : List Nat), (decodeLoop cs b values).length = values.length := by
  induction cs with
  | nil => intro b values; rfl
  | cons c rest ih =>
    intro b values
    simp only [decodeLoop]
    rw [ih]
    cases h : decode_single c with
    | none => simp only [h]
    | some v =>
      simp only [h]
      split <;> simp [orAt_length]

/-- The buffer allocated by `decode_text_raw` has exactly
`ceil(text.len() * 6 / 8)` bytes, `text.len()` counted in UTF-8 bytes. -/
theorem decode_text_raw_length (text : List Char) :
    (decode_text_raw text).length = (6 * utf8Len text + 7) / 8 := by
  simp only [decode_text_raw, decodeLoop_length, List.length_replicate]
  split <;> omega

/-- Reading past the end of a buffer with default 0 gives 0. -/
theorem getD_ge {l : List Nat} {j : Nat} (h : l.length ≤ j) : l.getD j 0 = 0 := by
  rw [List.getD_eq_getElem?_getD, List.getElem?_eq_none h]
  rfl

/-- Two buffers of the same length whose `getD` reads agree everywhere
are equal. -/
theorem ext_getD : ∀ (l1 l2 : List Nat), l1.length = l2.length →
    (∀ j, l1.getD j 0 = l2.getD j 0) → l1 = l2 := by
  intro l1
  induction l1 with
  | nil =>
    intro l2 hlen _
    cases l2 with
    | nil => rfl
    | cons b t2 => simp at hlen
  | cons a t ih =>
    intro l2 hlen hget
    cases l2 with
    | nil => simp at hlen
    | cons b t2 =>
      have h0 := hget 0
      simp only [List.getD_cons_zero] at h0
      have ht : t = t2 := by
        apply ih
        · simpa using hlen
        · intro j
          have := hget (j + 1)
          simpa using this
      rw [h0, ht]

/-- Unfolding equation for the sanitization scan on a cons cell. -/
theorem replaceChars_cons (p : Char → Bool) (rep : List Char) (a : Char) (s : List Char) :
    replaceChars p rep (a :: s) =
      if p a then rep ++ replaceChars p rep s else a :: replaceChars p rep s := rfl

/-- Every character of the sanitized string comes from the replacement
string or is an unmodified character that fails the predicate. -/
theorem mem_replaceChars {p : Char → Bool} {rep s : List Char} {c : Char}
    (h : c ∈ replaceChars p rep s) : c ∈ rep ∨ (p c = false ∧ c ∈ s) := by
  induction s with
  | nil => simp [replaceChars] at h
  | cons a t ih =>
    rw [replaceChars_cons] at h
    by_cases hp : p a
    · rw [if_pos hp] at h
      rcases List.mem_append.mp h with h1 | h2
      · exact Or.inl h1
      · rcases ih h2 with h3 | ⟨h4, h5⟩
        · exact Or.inl h3
        · exact Or.inr ⟨h4, List.mem_cons_of_mem _ h5⟩
    · rw [if_neg hp] at h
      rcases List.mem_cons.mp h with h1 | h2
      · subst h1
        exact Or.inr ⟨Bool.of_not_eq_true hp, List.mem_cons_self _ _⟩
      · rcases ih h2 with h3 | ⟨h4, h5⟩
        · exact Or.inl h3
        · exact Or.inr ⟨h4, List.mem_cons_of_mem _ h5⟩

/-- Every character of the display string is ASCII graphic, a space, or
the replacement character. -/
theorem decode_text_chars {text : List Char} {c : Char} (h : c ∈ decode_text text) :
    asciiGraphic c = true ∨ c = ' ' ∨ c = replacement_char := by
  rcases mem_replaceChars h with h1 | ⟨h2, _⟩
  · right; right; simpa using h1
  · simp only [badChar, Bool.not_eq_false', Bool.or_eq_true, beq_iff_eq] at h2
    rcases h2 with h3 | h4
    · exact Or.inl h3
    · exact Or.inr (Or.inl h4)

/-- Reading the buffer after `orAt`: position `i` gains the ORed bits
when it is in range, every other position is untouched. -/
theorem orAt_getD (l : List Nat) (i v j : Nat) :
    (orAt l i v).getD j 0 =
      if i = j ∧ j < l.length then l.getD j 0 ||| v else l.getD j 0 := by
  induction l generalizing i j with
  | nil => simp [orAt]
  | cons a t ih =>
    cases i with
    | zero =>
      cases j with
      | zero => simp [orAt]
      | succ j' => simp [orAt]
    | succ i' =>
      cases j with
      | zero => simp [orAt]
      | succ j' =>
        have h1 : orAt (a :: t) (i' + 1) v = a :: orAt t i' v := rfl
        rw [h1]
        simp only [List.getD_cons_succ, List.length_cons]
        rw [ih i' j']
        by_cases hij : i' = j'
        · subst hij
          by_cases hlt : i' < t.length
          · rw [if_pos ⟨rfl, hlt⟩, if_pos ⟨rfl, by omega⟩]
          · rw [if_neg (by omega), if_neg (by omega)]
        · rw [if_neg (by omega), if_neg (by omega)]

/-- Any value produced by `decode_single` is a 6-bit value. -/
theorem decode_single_lt {c : Char} {v : Nat} (h : decode_single c = some v) : v < 64 := by
  simp only [decode_single] at h
  split_ifs at h with h1 h2 h3 h4 h5 h6 <;>
    simp only [Option.some.injEq] at h <;> omega

/-- Multiplying by `2 ^ s` and reducing modulo `2 ^ (t + s)` reduces the
factor modulo `2 ^ t`. -/
theorem mul_pow_mod (v s t : Nat) : v * 2 ^ s % 2 ^ (t + s) = v % 2 ^ t * 2 ^ s := by
  rw [Nat.pow_add]
  exact Nat.mul_mod_mul_right _ _ _

/-- The `u8` truncation of the straddling-case low write equals the
specification's low-bits description: for `2 < r < 8`, shifting `v` left
by `10 - r` and truncating to a byte keeps exactly the low `r - 2` bits
of `v` shifted into the top of the next byte. -/
theorem shiftLow_eq (v r : Nat) (h2 : 2 < r) (h8 : r < 8) :
    v <<< (10 - r) % 256 = (v % 2 ^ (r - 2)) <<< (10 - r) := by
  have h256 : (256 : Nat) = 2 ^ (r - 2) * 2 ^ (10 - r) := by
    rw [← Nat.pow_add, show r - 2 + (10 - r) = 8 by omega]
  rw [Nat.shiftLeft_eq, Nat.shiftLeft_eq, h256, Nat.mul_mod_mul_right]

/-- In the single-byte case the `u8` shift cannot overflow, so the `% 256`
of the embedding is the identity. -/
theorem shiftHigh_eq (v r : Nat) (hv : v < 64) (hr : r ≤ 2) :
    v <<< (2 - r) % 256 = v <<< (2 - r) := by
  apply Nat.mod_eq_of_lt
  rw [Nat.shiftLeft_eq]
  have h1 : 2 ^ (2 - r) ≤ 4 := by
    calc 2 ^ (2 - r) ≤ 2 ^ 2 := Nat.pow_le_pow_right (by norm_num) (by omega)
    _ = 4 := rfl
  calc v * 2 ^ (2 - r) ≤ 63 * 4 := Nat.mul_le_mul (by omega) h1
  _ < 256 := by norm_num

/-- Master characterization of the decoding loop: running it from bit
offset `6 * k` ORs, into each in-range byte `j`, exactly the accumulated
specification-side contribution of the remaining characters. -/
theorem decodeLoop_getD (cs : List Char) :
    ∀ (k : Nat) (values : List Nat) (j : Nat), j < values.length →
      (decodeLoop cs (6 * k) values).getD j 0 = values.getD j 0 ||| contribFrom cs k j := by
  induction cs with
  | nil =>
    intro k values j hj
    simp [decodeLoop, contribFrom]
  | cons c rest ih =>
    intro k values j hj
    simp only [decodeLoop, contribFrom]
    have hstep : 6 * k + 6 = 6 * (k + 1) := by ring
    cases hdec : decode_single c with
    | none =>
      simp only [hdec, hstep]
      rw [ih (k + 1) values j hj]
      simp [Nat.zero_or]
    | some v =>
      have hv : v < 64 := decode_single_lt hdec
      have hr8 : 6 * k % 8 < 8 := Nat.mod_lt _ (by norm_num)
      simp only [hdec, hstep, writeVal]
      by_cases hr : 6 * k % 8 > 2
      · rw [if_pos hr, if_pos hr]
        have hlen : j < (orAt (orAt values (6 * k / 8) (v >>> (6 * k % 8 - 2)))
            (6 * k / 8 + 1) (v <<< (10 - 6 * k % 8) % 256)).length := by
          simpa [orAt_length] using hj
        rw [ih (k + 1) _ j hlen]
        rw [orAt_getD, orAt_getD, orAt_length]
        by_cases hj1 : 6 * k / 8 = j
        · rw [if_neg (by omega : ¬(6 * k / 8 + 1 = j ∧ j < values.length)),
            if_pos (⟨hj1, hj⟩ : 6 * k / 8 = j ∧ j < values.length),
            if_pos hj1, if_neg (by omega : ¬(6 * k / 8 + 1 = j))]
          simp [Nat.or_assoc, Nat.or_zero]
        · by_cases hj2 : 6 * k / 8 + 1 = j
          · rw [if_pos (⟨hj2, hj⟩ : 6 * k / 8 + 1 = j ∧ j < values.length),
              if_neg (by omega : ¬(6 * k / 8 = j ∧ j < values.length)),
              if_neg hj1, if_pos hj2, shiftLow_eq v _ hr hr8]
            simp [Nat.or_assoc, Nat.zero_or]
          · rw [if_neg (by omega : ¬(6 * k / 8 + 1 = j ∧ j < values.length)),
              if_neg (by omega : ¬(6 * k / 8 = j ∧ j < values.length)),
              if_neg hj1, if_neg hj2]
            simp [Nat.zero_or]
      · rw [if_neg hr, if_neg hr]
        have hlen : j < (orAt values (6 * k / 8) (v <<< (2 - 6 * k % 8) % 256)).length := by
          simpa [orAt_length] using hj
        rw [ih (k + 1) _ j hlen]
        rw [orAt_getD]
        by_cases hj1 : 6 * k / 8 = j
        · rw [if_pos (⟨hj1, hj⟩ : 6 * k / 8 = j ∧ j < values.length),
            if_pos hj1, shiftHigh_eq v _ hv (by omega)]
          simp [Nat.or_assoc]
        · rw [if_neg (by omega : ¬(6 * k / 8 = j ∧ j < values.length)),
            if_neg hj1]
          simp [Nat.zero_or]

/-- Reading a zero-filled buffer gives zero. -/
theorem replicate_getD_zero (n j : Nat) : (List.replicate n 0).getD j 0 = 0 := by
  induction n generalizing j with
  | zero => rfl
  | succ m ih =>
    cases j with
    | zero => rfl
    | succ j' => exact ih j'

/-- Every in-range byte of `decode_raw`'s buffer is exactly the
accumulated specification-side contribution of the input characters. -/
theorem decode_text_raw_getD (text : List Char) (j : Nat)
    (hj : j < (decode_text_raw text).length) :
    (decode_text_raw text).getD j 0 = contribFrom text 0 j := by
  have hj' : j < (List.replicate (utf8Len text * 6 / 8 +
      if utf8Len text * 6 % 8 = 0 then 0 else 1) (0 : Nat)).length := by
    simpa [decode_text_raw, decodeLoop_length] using hj
  have h := decodeLoop_getD text 0 _ j hj'
  simp only [Nat.mul_zero] at h
  simp only [decode_text_raw]
  rw [h, replicate_getD_zero]
  simp [Nat.zero_or]

/-- A set bit of a value below `2 ^ n` sits below position `n`. -/
theorem testBit_lt_pow {v n i : Nat} (hv : v < 2 ^ n) (h : v.testBit i = true) : i < n := by
  by_contra hc
  rw [Nat.testBit_lt_two_pow
    (lt_of_lt_of_le hv (Nat.pow_le_pow_right (by norm_num) (by omega)))] at h
  exact Bool.false_ne_true h

/-- Every bit that character `k` sets in byte `j` corresponds to a
stream-bit position `8 * j + 7 - q` inside the character's six-bit
window `[6 * k, 6 * k + 6)`. -/
theorem writeVal_testBit {k j v q : Nat} (hv : v < 64)
    (h : (writeVal k j v).testBit q = true) :
    q < 8 ∧ 6 * k + q ≤ 8 * j + 7 ∧ 8 * j + 7 < 6 * k + 6 + q := by
  have hb := Nat.div_add_mod (6 * k) 8
  have hr8 : 6 * k % 8 < 8 := Nat.mod_lt _ (by norm_num)
  simp only [writeVal] at h
  split_ifs at h with h1 h2 h3 h4 h5
  · -- both target bytes equal j: impossible
    omega
  · -- high bits into byte 6*k/8
    rw [Nat.or_zero] at h
    rw [Nat.testBit_shiftRight] at h
    have h6 : 6 * k % 8 - 2 + q < 6 := testBit_lt_pow (by omega : v < 2 ^ 6) h
    omega
  · -- low bits into byte 6*k/8 + 1
    rw [Nat.zero_or] at h
    rw [Nat.testBit_shiftLeft, Bool.and_eq_true] at h
    rcases h with ⟨hd, ht⟩
    have hdq : 10 - 6 * k % 8 ≤ q := of_decide_eq_true hd
    have h6 : q - (10 - 6 * k % 8) < 6 * k % 8 - 2 :=
      testBit_lt_pow (Nat.mod_lt _ (Nat.pos_pow_of_pos _ (by norm_num))) ht
    omega
  · -- neither byte is j
    simp at h
  · -- single-byte case into byte 6*k/8
    rw [Nat.testBit_shiftLeft, Bool.and_eq_true] at h
    rcases h with ⟨hd, ht⟩
    have hdq : 2 - 6 * k % 8 ≤ q := of_decide_eq_true hd
    have h6 : q - (2 - 6 * k % 8) < 6 := testBit_lt_pow (by omega : v < 2 ^ 6) ht
    omega
  · simp at h

/-- Writes of two distinct characters into the same byte touch disjoint
bits: their six-bit stream windows are disjoint. -/
theorem writeVal_disjoint {k k' j v v' : Nat} (hne : k ≠ k') (hv : v < 64) (hv' : v' < 64) :
    writeVal k j v &&& writeVal k' j v' = 0 := by
  apply Nat.eq_of_testBit_eq
  intro q
  rw [Nat.testBit_and, Nat.zero_testBit]
  by_cases h1 : (writeVal k j v).testBit q = true
  · by_cases h2 : (writeVal k' j v').testBit q = true
    · obtain ⟨_, a1, a2⟩ := writeVal_testBit hv h1
      obtain ⟨_, b1, b2⟩ := writeVal_testBit hv' h2
      omega
    · simp [h1, h2]
  · simp [h1]

/-- The contributions of two distinct input characters to any byte of
the buffer are bitwise disjoint: no bit position is written twice. -/
theorem charContrib_disjoint (text : List Char) (k k' : Nat) (hne : k ≠ k') (j : Nat) :
    charContrib text k j &&& charContrib text k' j = 0 := by
  unfold charContrib
  cases h1 : text[k]? with
  | none => simp
  | some c =>
    cases h2 : decode_single c with
    | none => simp [h2]
    | some v =>
      simp only [h2]
      cases h3 : text[k']? with
      | none => simp
      | some c' =>
        cases h4 : decode_single c' with
        | none => simp [h4]
        | some v' =>
          simp only [h4]
          exact writeVal_disjoint hne (decode_single_lt h2) (decode_single_lt h4)

/-- Claim C1: for every input text, each in-range byte of `decode_raw`'s
buffer is exactly the OR of the per-character writes described by the
specification (character `k`, bit offset `b = 6 * k`, `r = b % 8`: the
value lands in byte `b / 8` shifted by `2 - r` when `r ≤ 2`, else the
high `8 - r` bits go to byte `b / 8` and the low bits, shifted by
`10 - r`, to byte `b / 8 + 1`), and the writes of any two distinct
characters to a byte are bitwise disjoint: bits are only combined with
OR and no bit position is written twice. -/
theorem c1_bit_packing (text : List Char) :
    (∀ j, j < (decode_text_raw text).length →
      (decode_text_raw text).getD j 0 = contribFrom text 0 j) ∧
    (∀ k k', k ≠ k' → ∀ j, charContrib text k j &&& charContrib text k' j = 0) :=
  ⟨fun j hj => decode_text_raw_getD text j hj,
   fun k k' hne j => charContrib_disjoint text k k' hne j⟩

/-- Witness for C1 on the concrete input `"TQ"`: byte 0 of the buffer is
the accumulated contribution, and the writes of characters 0 and 1 to
byte 0 are disjoint. -/
theorem c1_bit_packing_witness :
    (decode_text_raw ['T', 'Q']).getD 0 0 = contribFrom ['T', 'Q'] 0 0 ∧
    charContrib ['T', 'Q'] 0 0 &&& charContrib ['T', 'Q'] 1 0 = 0 :=
  ⟨(c1_bit_packing ['T', 'Q']).1 0 (by decide),
   (c1_bit_packing ['T', 'Q']).2 0 1 (by decide) 0⟩

/-- Characterization of the trailing-zero trim: it returns a leading
slice of the buffer (no interior byte removed), everything at or beyond
the cut is zero, and the kept part is empty or ends in a non-zero byte. -/
theorem trimZeros_spec (l : List Nat) :
    ∃ k, k ≤ l.length ∧ trimZeros l = l.take k ∧
      (∀ j, k ≤ j → l.getD j 0 = 0) ∧ (k = 0 ∨ l.getD (k - 1) 0 ≠ 0) := by
  induction l using List.reverseRecOn with
  | nil =>
    exact ⟨0, Nat.le_refl _, rfl, fun j _ => rfl, Or.inl rfl⟩
  | append_singleton l' a ih =>
    by_cases ha : a = 0
    · subst ha
      rcases ih with ⟨k, hk, htrim, hzero, hlast⟩
      refine ⟨k, ?_, ?_, ?_, ?_⟩
      · simp; omega
      · have h1 : trimZeros (l' ++ [(0 : Nat)]) = trimZeros l' := by
          simp [trimZeros, List.reverse_append, List.dropWhile_cons]
        rw [h1, htrim, List.take_append_of_le_length hk]
      · intro j hj
        rcases Nat.lt_or_ge j l'.length with hlt | hge
        · rw [List.getD_append _ _ _ _ hlt]
          exact hzero j hj
        · rw [List.getD_append_right _ _ _ _ hge]
          rcases Nat.lt_or_ge (j - l'.length) 1 with h1 | h1
          · have h2 : j - l'.length = 0 := by omega
            rw [h2]; rfl
          · exact getD_ge (by simpa using h1)
      · rcases hlast with h | h
        · exact Or.inl h
        · right
          have hk1 : k - 1 < l'.length := by
            by_contra hc
            exact h (getD_ge (by omega))
          rw [List.getD_append _ _ _ _ hk1]
          exact h
    · refine ⟨l'.length + 1, ?_, ?_, ?_, ?_⟩
      · simp
      · have h1 : trimZeros (l' ++ [a]) = l' ++ [a] := by
          simp only [trimZeros, List.reverse_append, List.reverse_cons, List.reverse_nil,
            List.nil_append, List.singleton_append, List.dropWhile_cons]
          rw [if_neg (by simpa using ha)]
          simp
        rw [h1, show l'.length + 1 = (l' ++ [a]).length by simp, List.take_length]
      · intro j hj
        exact getD_ge (by simp; omega)
      · right
        simp only [Nat.add_sub_cancel]
        rw [List.getD_append_right _ _ _ _ (Nat.le_refl _)]
        simpa using ha

/-- Claim C6: the trimming step of `decode_display` only ever removes a
suffix of the byte buffer: the trimmed buffer is a leading slice of
`decode_raw`'s output, every removed byte is zero, and the result is
empty or ends in a non-zero byte. -/
theorem c6_trim_suffix_only (text : List Char) :
    ∃ k, k ≤ (decode_text_raw text).length ∧
      trimZeros (decode_text_raw text) = (decode_text_raw text).take k ∧
      (∀ j, k ≤ j → (decode_text_raw text).getD j 0 = 0) ∧
      (k = 0 ∨ (decode_text_raw text).getD (k - 1) 0 ≠ 0) :=
  trimZeros_spec _

/-- Every character occupies at least one UTF-8 byte. -/
theorem charLen_pos (c : Char) : 1 ≤ charLen c := by
  simp only [charLen]
  split_ifs <;> norm_num

/-- The character count of the input never exceeds its UTF-8 byte
length. -/
theorem utf8Len_ge (text : List Char) : text.length ≤ utf8Len text := by
  induction text with
  | nil => simp [utf8Len]
  | cons c t ih =>
    have h1 := charLen_pos c
    have h2 : utf8Len (c :: t) = charLen c + utf8Len t := by
      simp [utf8Len]
    simp only [List.length_cons]
    omega

/-- Claim C8: the decoder is total and in-bounds on every input: for
every character position, the byte index `b / 8` it may write is inside
the buffer, and in the straddling case (`b % 8 > 2`) so is `b / 8 + 1`;
moreover `decode_display` always returns a string made of displayable
characters only. -/
theorem c8_total_in_bounds (text : List Char) :
    (∀ k, k < text.length →
      6 * k / 8 < (decode_text_raw text).length ∧
      (6 * k % 8 > 2 → 6 * k / 8 + 1 < (decode_text_raw text).length)) ∧
    (∀ c ∈ decode_text text, displayable c) := by
  constructor
  · intro k hk
    rw [decode_text_raw_length]
    have h1 : text.length ≤ utf8Len text := utf8Len_ge text
    constructor
    · omega
    · intro h2
      omega
  · intro c hc
    unfold displayable
    exact decode_text_chars hc

/-- Witness for C8 on the input `"AQ=="` at character index 1 (the
straddling case `6 % 8 = 6 > 2`), plus a displayable output character. -/
theorem c8_total_in_bounds_witness :
    6 * 1 / 8 < (decode_text_raw ['A', 'Q', '=', '=']).length ∧
    6 * 1 / 8 + 1 < (decode_text_raw ['A', 'Q', '=', '=']).length ∧
    displayable replacement_char := by
  have h := (c8_total_in_bounds ['A', 'Q', '=', '=']).1 1 (by decide)
  exact ⟨h.1, h.2 (by decide),
    (c8_total_in_bounds ['A', 'Q', '=', '=']).2 replacement_char (by decide)⟩

/-- A zero-valued symbol writes nothing: all its write values are 0. -/
theorem writeVal_zero (k j : Nat) : writeVal k j 0 = 0 := by
  simp only [writeVal]
  split_ifs <;>
    simp [Nat.zero_shiftLeft, Nat.zero_shiftRight, Nat.zero_mod]

/-- Contributions distribute over list append, with the tail offset by
the head's character count. -/
theorem contribFrom_append (xs ys : List Char) : ∀ k j,
    contribFrom (xs ++ ys) k j = contribFrom xs k j ||| contribFrom ys (k + xs.length) j := by
  induction xs with
  | nil =>
    intro k j
    simp [contribFrom]
  | cons c t ih =>
    intro k j
    simp only [List.cons_append, contribFrom, List.length_cons, List.append_eq]
    rw [ih (k + 1) j, show k + (t.length + 1) = k + 1 + t.length by omega, Nat.or_assoc]

/-- The UTF-8 byte length is additive over append. -/
theorem utf8Len_append (xs ys : List Char) :
    utf8Len (xs ++ ys) = utf8Len xs + utf8Len ys := by
  simp [utf8Len]

/-- Claim C4, counterexample: replacing the `=` of the input `"="` by
the non-alphabet character `é` does not give an identical buffer — the
buffer grows from 1 byte to 2, because `é` occupies two UTF-8 bytes and
the buffer is sized from the byte length of the input. -/
theorem c4_counterexample : decode_text_raw ['='] ≠ decode_text_raw ['é'] := by
  decide

/-- Claim C4, amended: replacing a `=` anywhere in the input by a
non-alphabet character of the same one-byte UTF-8 width (for example
`#`) yields a byte-for-byte identical `decode_raw` buffer: both act as
zero-value symbols that advance the bit cursor by 6 without writing.
For wider replacement characters only the buffer length changes. -/
theorem c4_invalid_padding_equiv (pre post : List Char) (c : Char)
    (hc : decode_single c = none) (hl : charLen c = 1) :
    decode_text_raw (pre ++ '=' :: post) = decode_text_raw (pre ++ c :: post) := by
  have he1 : charLen '=' = 1 := rfl
  have hlen : utf8Len (pre ++ '=' :: post) = utf8Len (pre ++ c :: post) := by
    simp [utf8Len, hl, he1]
  have hlen2 : (decode_text_raw (pre ++ '=' :: post)).length =
      (decode_text_raw (pre ++ c :: post)).length := by
    rw [decode_text_raw_length, decode_text_raw_length, hlen]
  apply ext_getD _ _ hlen2
  intro j
  rcases Nat.lt_or_ge j (decode_text_raw (pre ++ '=' :: post)).length with hj | hj
  · have hj2 : j < (decode_text_raw (pre ++ c :: post)).length := by omega
    rw [decode_text_raw_getD _ j hj, decode_text_raw_getD _ j hj2,
      contribFrom_append, contribFrom_append]
    congr 1
    simp only [contribFrom]
    rw [hc, show decode_single '=' = some 0 from rfl]
    simp [writeVal_zero]
  · rw [getD_ge hj, getD_ge (by omega)]

/-- Witness for C4 (amended) on the concrete input `"TQ="` with the
trailing `=` replaced by `#`. -/
theorem c4_invalid_padding_equiv_witness :
    decode_text_raw ['T', 'Q', '='] = decode_text_raw ['T', 'Q', '#'] :=
  c4_invalid_padding_equiv ['T', 'Q'] [] '#' (by decide) (by decide)

/-- Claim C9: on the empty input, `decode_raw` returns an empty byte
buffer and `decode_display` returns an empty string. -/
theorem c9_empty_input :
    decode_text_raw [] = [] ∧ decode_text [] = [] := by
  constructor <;> rfl

/-- Claim C2, counterexample: on the one-character input `"é"` the
buffer does not have `ceil(1 * 6 / 8) = 1` byte; it has 2, because the
code sizes the buffer from the UTF-8 byte length of the input, and `é`
occupies two bytes. -/
theorem c2_counterexample :
    (decode_text_raw ['é']).length ≠ (['é'].length * 6 + 7) / 8 := by
  decide

/-- Claim C2, amended: for every input text, the byte buffer returned by
`decode_raw` has length exactly `ceil(n * 6 / 8)` where `n` is the UTF-8
byte length of the input (`text.len()` in Rust), not its character
count; the two agree on all-ASCII inputs. -/
theorem c2_length_amended (text : List Char) :
    (decode_text_raw text).length = (utf8Len text * 6 + 7) / 8 := by
  rw [decode_text_raw_length]; omega

/-- Claim C3: the symbol mapping is case-sensitive and exactly the
table given in the specification; `=` is an ordinary zero-value symbol
and everything outside the table is invalid. -/
theorem c3_symbol_table :
    (∀ c : Char, 'A'.toNat ≤ c.toNat → c.toNat ≤ 'Z'.toNat →
      decode_single c = some (c.toNat - 'A'.toNat)) ∧
    (∀ c : Char, 'a'.toNat ≤ c.toNat → c.toNat ≤ 'z'.toNat →
      decode_single c = some (c.toNat - 'a'.toNat + 26)) ∧
    (∀ c : Char, '0'.toNat ≤ c.toNat → c.toNat ≤ '9'.toNat →
      decode_single c = some (c.toNat - '0'.toNat + 52)) ∧
    decode_single '+' = some 62 ∧
    decode_single '/' = some 63 ∧
    decode_single '=' = some 0 ∧
    (∀ c : Char,
      ¬('A'.toNat ≤ c.toNat ∧ c.toNat ≤ 'Z'.toNat) →
      ¬('a'.toNat ≤ c.toNat ∧ c.toNat ≤ 'z'.toNat) →
      ¬('0'.toNat ≤ c.toNat ∧ c.toNat ≤ '9'.toNat) →
      c.toNat ≠ '+'.toNat → c.toNat ≠ '/'.toNat → c.toNat ≠ '='.toNat →
      decode_single c = none) := by
  have hA : 'A'.toNat = 65 := rfl
  have hZ : 'Z'.toNat = 90 := rfl
  have ha : 'a'.toNat = 97 := rfl
  have hz : 'z'.toNat = 122 := rfl
  have h0 : '0'.toNat = 48 := rfl
  have h9 : '9'.toNat = 57 := rfl
  have hp : '+'.toNat = 43 := rfl
  have hs : '/'.toNat = 47 := rfl
  have he : '='.toNat = 61 := rfl
  refine ⟨?_, ?_, ?_, by decide, by decide, by decide, ?_⟩ <;>
    intro c <;>
    simp only [hA, hZ, ha, hz, h0, h9, hp, hs, he, decode_single] <;>
    intros <;> split_ifs <;> first | rfl | omega

/-- Witness for C3 at concrete characters from each branch of the
table, including an invalid one. -/
theorem c3_symbol_table_witness :
    decode_single 'B' = some ('B'.toNat - 'A'.toNat) ∧
    decode_single 'b' = some ('b'.toNat - 'a'.toNat + 26) ∧
    decode_single '7' = some ('7'.toNat - '0'.toNat + 52) ∧
    decode_single '@' = none :=
  ⟨c3_symbol_table.1 'B' (by decide) (by decide),
   c3_symbol_table.2.1 'b' (by decide) (by decide),
   c3_symbol_table.2.2.1 '7' (by decide) (by decide),
   c3_symbol_table.2.2.2.2.2.2 '@' (by decide) (by decide) (by decide)
     (by decide) (by decide) (by decide)⟩

/-- Decoding a canonical alphabet symbol recovers its 6-bit value. -/
theorem decode_alphaChar : ∀ v < 64, decode_single (alphaChar v) = some v := by
  decide

/-- Canonical alphabet symbols are one UTF-8 byte wide. -/
theorem charLen_alphaChar : ∀ v < 64, charLen (alphaChar v) = 1 := by
  decide

/-- Recombining the high and low parts of a byte with OR recovers the
byte, for each of the three split points base64 uses. -/
theorem or_div_mod : ∀ b < 256,
    ((b / 4) * 4 ||| b % 4 = b) ∧ ((b / 16) * 16 ||| b % 16 = b) ∧
      ((b / 64) * 64 ||| b % 64 = b) := by
  decide

/-- Shift-to-arithmetic conversions used by the round-trip proof. -/
theorem shl2 (x : Nat) : x <<< 2 = x * 4 := by rw [Nat.shiftLeft_eq]

theorem shl4 (x : Nat) : x <<< 4 = x * 16 := by rw [Nat.shiftLeft_eq]

theorem shl6 (x : Nat) : x <<< 6 = x * 64 := by rw [Nat.shiftLeft_eq]

theorem shr2 (x : Nat) : x >>> 2 = x / 4 := by rw [Nat.shiftRight_eq_div_pow]

theorem shr4 (x : Nat) : x >>> 4 = x / 16 := by rw [Nat.shiftRight_eq_div_pow]

/-- `contribFrom` on a cons cell, with the invalid-character case folded
into `writeVal _ _ 0 = 0`. -/
theorem contribFrom_cons (c : Char) (rest : List Char) (k j : Nat) :
    contribFrom (c :: rest) k j =
      writeVal k j ((decode_single c).getD 0) ||| contribFrom rest (k + 1) j := by
  simp only [contribFrom]
  cases hd : decode_single c with
  | none => simp [writeVal_zero]
  | some v => simp

/-- Characters whose six-bit window starts after stream bit `8 * j + 7`
contribute nothing to byte `j`. -/
theorem contribFrom_before (cs : List Char) : ∀ k j, 8 * j + 7 < 6 * k →
    contribFrom cs k j = 0 := by
  induction cs with
  | nil => intro k j _; rfl
  | cons c t ih =>
    intro k j h
    rw [contribFrom_cons, ih (k + 1) j (by omega)]
    have hw : writeVal k j ((decode_single c).getD 0) = 0 := by
      have hb := Nat.div_add_mod (6 * k) 8
      have hr8 : 6 * k % 8 < 8 := Nat.mod_lt _ (by norm_num)
      simp only [writeVal]
      split_ifs <;> first | (exfalso; omega) | simp
    rw [hw]
    simp

/-- `writeVal` at a character index `≡ 0 (mod 4)`: bit offset `24 m`,
remainder 0, one write into byte `3 m`. -/
theorem writeVal_4m (m j v : Nat) :
    writeVal (4 * m) j v = if 3 * m = j then v <<< 2 else 0 := by
  have h1 : 6 * (4 * m) % 8 = 0 := by omega
  have h2 : 6 * (4 * m) / 8 = 3 * m := by omega
  simp only [writeVal, h1, h2]
  norm_num

/-- `writeVal` at index `≡ 1 (mod 4)`: offset `24 m + 6`, remainder 6,
split across bytes `3 m` and `3 m + 1`. -/
theorem writeVal_4m1 (m j v : Nat) :
    writeVal (4 * m + 1) j v =
      (if 3 * m = j then v >>> 4 else 0) |||
        (if 3 * m + 1 = j then (v % 16) <<< 4 else 0) := by
  have h1 : 6 * (4 * m + 1) % 8 = 6 := by omega
  have h2 : 6 * (4 * m + 1) / 8 = 3 * m := by omega
  simp only [writeVal, h1, h2]
  norm_num

/-- `writeVal` at index `≡ 2 (mod 4)`: offset `24 m + 12`, remainder 4,
split across bytes `3 m + 1` and `3 m + 2`. -/
theorem writeVal_4m2 (m j v : Nat) :
    writeVal (4 * m + 2) j v =
      (if 3 * m + 1 = j then v >>> 2 else 0) |||
        (if 3 * m + 2 = j then (v % 4) <<< 6 else 0) := by
  have h1 : 6 * (4 * m + 2) % 8 = 4 := by omega
  have h2 : 6 * (4 * m + 2) / 8 = 3 * m + 1 := by omega
  simp only [writeVal, h1, h2]
  norm_num

/-- `writeVal` at index `≡ 3 (mod 4)`: offset `24 m + 18`, remainder 2,
one unshifted write into byte `3 m + 2`. -/
theorem writeVal_4m3 (m j v : Nat) :
    writeVal (4 * m + 3) j v = if 3 * m + 2 = j then v else 0 := by
  have h1 : 6 * (4 * m + 3) % 8 = 2 := by omega
  have h2 : 6 * (4 * m + 3) / 8 = 3 * m + 2 := by omega
  simp only [writeVal, h1, h2]
  norm_num

/-- Round-trip core: the accumulated contribution of the hand-rolled
canonical encoding of `bs`, starting at character index `4 * m`, places
exactly the bytes of `bs` starting at byte `3 * m` and nothing anywhere
else.  Induction is on a length bound so the three-byte-group recursion
of `encode` can step. -/
theorem encode_contrib : ∀ (n : Nat) (bs : List Nat), bs.length ≤ n →
    (∀ b ∈ bs, b < 256) → ∀ (m j : Nat),
    contribFrom (encode bs) (4 * m) j =
      if 3 * m ≤ j then bs.getD (j - 3 * m) 0 else 0 := by
  intro n
  induction n with
  | zero =>
    intro bs hlen _ m j
    have hnil : bs = [] := List.eq_nil_of_length_eq_zero (Nat.le_zero.mp hlen)
    subst hnil
    simp [encode, contribFrom]
  | succ n ihn =>
    intro bs hlen hb m j
    rcases bs with _ | ⟨b1, bs1⟩
    · simp [encode, contribFrom]
    rcases bs1 with _ | ⟨b2, bs2⟩
    · -- a single trailing byte, encoded with two padding symbols
      have hb1 : b1 < 256 := hb b1 (by simp)
      have hv1 : b1 / 4 < 64 := by omega
      have hv2 : b1 % 4 * 16 < 64 := by omega
      simp only [encode]
      rw [contribFrom_cons, contribFrom_cons, contribFrom_cons, contribFrom_cons]
      rw [show 4 * m + 1 + 1 = 4 * m + 2 from by omega,
        show 4 * m + 2 + 1 = 4 * m + 3 from by omega]
      rw [decode_alphaChar _ hv1, decode_alphaChar _ hv2,
        show decode_single '=' = some 0 from rfl]
      simp only [Option.getD_some, contribFrom]
      rw [writeVal_4m, writeVal_4m1, writeVal_4m2, writeVal_4m3]
      simp only [Nat.zero_shiftRight, Nat.zero_shiftLeft, Nat.zero_mod, ite_self,
        Nat.or_zero]
      rw [show b1 % 4 * 16 % 16 = 0 from by omega]
      simp only [Nat.zero_shiftLeft, ite_self, Nat.or_zero]
      by_cases hj0 : 3 * m = j
      · rw [if_pos hj0, if_pos hj0, if_pos (by omega : 3 * m ≤ j),
          show j - 3 * m = 0 from by omega, List.getD_cons_zero,
          shl2, shr4, show b1 % 4 * 16 / 16 = b1 % 4 from by omega]
        exact (or_div_mod b1 hb1).1
      · rw [if_neg hj0, if_neg hj0]
        simp only [Nat.zero_or]
        by_cases hle : 3 * m ≤ j
        · rw [if_pos hle, getD_ge (show [b1].length ≤ j - 3 * m by simp; omega)]
        · rw [if_neg hle]
    rcases bs2 with _ | ⟨b3, rest⟩
    · -- two trailing bytes, encoded with one padding symbol
      have hb1 : b1 < 256 := hb b1 (by simp)
      have hb2 : b2 < 256 := hb b2 (by simp)
      have hv1 : b1 / 4 < 64 := by omega
      have hv2 : b1 % 4 * 16 + b2 / 16 < 64 := by omega
      have hv3 : b2 % 16 * 4 < 64 := by omega
      simp only [encode]
      rw [contribFrom_cons, contribFrom_cons, contribFrom_cons, contribFrom_cons]
      rw [show 4 * m + 1 + 1 = 4 * m + 2 from by omega,
        show 4 * m + 2 + 1 = 4 * m + 3 from by omega]
      rw [decode_alphaChar _ hv1, decode_alphaChar _ hv2, decode_alphaChar _ hv3,
        show decode_single '=' = some 0 from rfl]
      simp only [Option.getD_some, contribFrom]
      rw [writeVal_4m, writeVal_4m1, writeVal_4m2, writeVal_4m3]
      simp only [ite_self, Nat.or_zero]
      rw [show b2 % 16 * 4 % 4 = 0 from by omega]
      simp only [Nat.zero_shiftLeft, ite_self, Nat.or_zero]
      by_cases hj0 : 3 * m = j
      · rw [if_pos hj0, if_pos hj0, if_neg (by omega : ¬3 * m + 1 = j),
          if_neg (by omega : ¬3 * m + 1 = j), if_pos (by omega : 3 * m ≤ j),
          show j - 3 * m = 0 from by omega, List.getD_cons_zero,
          shl2, shr4, show (b1 % 4 * 16 + b2 / 16) / 16 = b1 % 4 from by omega]
        simp only [Nat.or_zero, Nat.zero_or]
        exact (or_div_mod b1 hb1).1
      · by_cases hj1 : 3 * m + 1 = j
        · rw [if_neg hj0, if_neg hj0, if_pos hj1, if_pos hj1,
            shl4, shr2, show (b1 % 4 * 16 + b2 / 16) % 16 = b2 / 16 from by omega,
            show b2 % 16 * 4 / 4 = b2 % 16 from by omega,
            if_pos (by omega : 3 * m ≤ j),
            show j - 3 * m = 1 from by omega]
          simp only [Nat.zero_or, Nat.or_zero, List.getD_cons_succ, List.getD_cons_zero]
          exact (or_div_mod b2 hb2).2.1
        · rw [if_neg hj0, if_neg hj0, if_neg hj1, if_neg hj1]
          simp only [Nat.zero_or]
          by_cases hle : 3 * m ≤ j
          · rw [if_pos hle, getD_ge (show [b1, b2].length ≤ j - 3 * m by simp; omega)]
          · rw [if_neg hle]
    · -- a full three-byte group followed by the rest
      have hb1 : b1 < 256 := hb b1 (by simp)
      have hb2 : b2 < 256 := hb b2 (by simp)
      have hb3 : b3 < 256 := hb b3 (by simp)
      have hrest : rest.length ≤ n := by
        simp only [List.length_cons] at hlen
        omega
      have hbrest : ∀ b ∈ rest, b < 256 := fun b hbm => hb b (by simp [hbm])
      have hv1 : b1 / 4 < 64 := by omega
      have hv2 : b1 % 4 * 16 + b2 / 16 < 64 := by omega
      have hv3 : b2 % 16 * 4 + b3 / 64 < 64 := by omega
      have hv4 : b3 % 64 < 64 := by omega
      simp only [encode]
      rw [contribFrom_cons, contribFrom_cons, contribFrom_cons, contribFrom_cons]
      rw [show 4 * m + 1 + 1 = 4 * m + 2 from by omega,
        show 4 * m + 2 + 1 = 4 * m + 3 from by omega,
        show 4 * m + 3 + 1 = 4 * (m + 1) from by omega]
      rw [decode_alphaChar _ hv1, decode_alphaChar _ hv2, decode_alphaChar _ hv3,
        decode_alphaChar _ hv4]
      simp only [Option.getD_some]
      rw [writeVal_4m, writeVal_4m1, writeVal_4m2, writeVal_4m3,
        ihn rest hrest hbrest (m + 1) j]
      by_cases hj0 : 3 * m = j
      · rw [if_pos hj0, if_pos hj0, if_neg (by omega : ¬3 * m + 1 = j),
          if_neg (by omega : ¬3 * m + 1 = j), if_neg (by omega : ¬3 * m + 2 = j),
          if_neg (by omega : ¬3 * m + 2 = j), if_neg (by omega : ¬3 * (m + 1) ≤ j),
          if_pos (by omega : 3 * m ≤ j), show j - 3 * m = 0 from by omega,
          List.getD_cons_zero, shl2, shr4,
          show (b1 % 4 * 16 + b2 / 16) / 16 = b1 % 4 from by omega]
        simp only [Nat.or_zero, Nat.zero_or]
        exact (or_div_mod b1 hb1).1
      · by_cases hj1 : 3 * m + 1 = j
        · rw [if_neg hj0, if_neg hj0, if_pos hj1, if_pos hj1,
            if_neg (by omega : ¬3 * m + 2 = j), if_neg (by omega : ¬3 * m + 2 = j),
            if_neg (by omega : ¬3 * (m + 1) ≤ j),
            shl4, shr2, show (b1 % 4 * 16 + b2 / 16) % 16 = b2 / 16 from by omega,
            show (b2 % 16 * 4 + b3 / 64) / 4 = b2 % 16 from by omega,
            if_pos (by omega : 3 * m ≤ j), show j - 3 * m = 1 from by omega]
          simp only [Nat.zero_or, Nat.or_zero, List.getD_cons_succ, List.getD_cons_zero]
          exact (or_div_mod b2 hb2).2.1
        · by_cases hj2 : 3 * m + 2 = j
          · rw [if_neg hj0, if_neg hj0, if_neg hj1, if_neg hj1, if_pos hj2, if_pos hj2,
              if_neg (by omega : ¬3 * (m + 1) ≤ j),
              shl6, show (b2 % 16 * 4 + b3 / 64) % 4 = b3 / 64 from by omega,
              if_pos (by omega : 3 * m ≤ j), show j - 3 * m = 2 from by omega]
            simp only [Nat.zero_or, Nat.or_zero, List.getD_cons_succ, List.getD_cons_zero]
            exact (or_div_mod b3 hb3).2.2
          · rw [if_neg hj0, if_neg hj0, if_neg hj1, if_neg hj1, if_neg hj2, if_neg hj2]
            simp only [Nat.zero_or]
            by_cases hle : 3 * m ≤ j
            · rw [if_pos (by omega : 3 * (m + 1) ≤ j), if_pos hle,
                show j - 3 * m = j - 3 * (m + 1) + 1 + 1 + 1 from by omega]
              simp only [List.getD_cons_succ]
            · rw [if_neg (by omega : ¬3 * (m + 1) ≤ j), if_neg hle]

/-- `utf8Len` on a cons cell. -/
theorem utf8Len_cons (c : Char) (t : List Char) :
    utf8Len (c :: t) = charLen c + utf8Len t := by
  simp [utf8Len]

/-- The canonical encoding of `bs` consists of `4 * ceil(|bs| / 3)`
ASCII characters, so its UTF-8 byte length equals its character count. -/
theorem encode_sizes : ∀ (n : Nat) (bs : List Nat), bs.length ≤ n →
    (∀ b ∈ bs, b < 256) →
    utf8Len (encode bs) = 4 * ((bs.length + 2) / 3) ∧
      (encode bs).length = 4 * ((bs.length + 2) / 3) := by
  intro n
  induction n with
  | zero =>
    intro bs hlen _
    have hnil : bs = [] := List.eq_nil_of_length_eq_zero (Nat.le_zero.mp hlen)
    subst hnil
    simp [encode, utf8Len]
  | succ n ihn =>
    intro bs hlen hb
    rcases bs with _ | ⟨b1, bs1⟩
    · simp [encode, utf8Len]
    rcases bs1 with _ | ⟨b2, bs2⟩
    · have hb1 : b1 < 256 := hb b1 (by simp)
      simp only [encode, utf8Len_cons, charLen_alphaChar _ (by omega : b1 / 4 < 64),
        charLen_alphaChar _ (by omega : b1 % 4 * 16 < 64),
        show charLen '=' = 1 from rfl]
      simp [utf8Len]
    rcases bs2 with _ | ⟨b3, rest⟩
    · have hb1 : b1 < 256 := hb b1 (by simp)
      have hb2 : b2 < 256 := hb b2 (by simp)
      simp only [encode, utf8Len_cons, charLen_alphaChar _ (by omega : b1 / 4 < 64),
        charLen_alphaChar _ (by omega : b1 % 4 * 16 + b2 / 16 < 64),
        charLen_alphaChar _ (by omega : b2 % 16 * 4 < 64),
        show charLen '=' = 1 from rfl]
      simp [utf8Len]
    · have hb1 : b1 < 256 := hb b1 (by simp)
      have hb2 : b2 < 256 := hb b2 (by simp)
      have hb3 : b3 < 256 := hb b3 (by simp)
      have hrest : rest.length ≤ n := by
        simp only [List.length_cons] at hlen
        omega
      have hbrest : ∀ b ∈ rest, b < 256 := fun b hbm => hb b (by simp [hbm])
      obtain ⟨hu, hl⟩ := ihn rest hrest hbrest
      simp only [encode, utf8Len_cons, charLen_alphaChar _ (by omega : b1 / 4 < 64),
        charLen_alphaChar _ (by omega : b1 % 4 * 16 + b2 / 16 < 64),
        charLen_alphaChar _ (by omega : b2 % 16 * 4 + b3 / 64 < 64),
        charLen_alphaChar _ (by omega : b3 % 64 < 64), List.length_cons, hu, hl]
      constructor <;> omega

/-- Claim C5: hand-encoding any byte sequence with the canonical base64
alphabet (including `=` padding) and feeding the string to `decode_raw`
reproduces the original bytes as a leading slice of the output buffer,
with only zero bytes after it; `decode_raw` itself keeps those trailing
zeros. -/
theorem c5_round_trip (bs : List Nat) (hb : ∀ b ∈ bs, b < 256) :
    bs.length ≤ (decode_text_raw (encode bs)).length ∧
    ∀ j, (decode_text_raw (encode bs)).getD j 0 = bs.getD j 0 := by
  obtain ⟨hu, _⟩ := encode_sizes bs.length bs (Nat.le_refl _) hb
  have hlen : (decode_text_raw (encode bs)).length = 3 * ((bs.length + 2) / 3) := by
    rw [decode_text_raw_length, hu]
    omega
  constructor
  · rw [hlen]
    omega
  · intro j
    rcases Nat.lt_or_ge j (decode_text_raw (encode bs)).length with hj | hj
    · rw [decode_text_raw_getD _ j hj]
      have h := encode_contrib bs.length bs (Nat.le_refl _) hb 0 j
      rw [if_pos (Nat.zero_le j), Nat.sub_zero] at h
      exact h
    · rw [getD_ge hj, getD_ge (show bs.length ≤ j by omega)]

/-- Witness for C5 at the concrete byte `[0x4D]`, whose encoding is
`"TQ=="`. -/
theorem c5_round_trip_witness :
    [77].length ≤ (decode_text_raw (encode [77])).length ∧
    (decode_text_raw (encode [77])).getD 0 0 = [77].getD 0 0 :=
  ⟨(c5_round_trip [77] (by decide)).1, (c5_round_trip [77] (by decide)).2 0⟩

/-- Claim C7: the sanitization pass of `decode_display` maps each
character of the lossily decoded string to exactly one output character,
replacing it by U+FFFD exactly when it is neither ASCII graphic nor a
space and keeping it otherwise; in particular the input `"AQ=="`, which
decodes to the single control byte 0x01, displays as exactly one
replacement marker. -/
theorem c7_sanitization :
    (∀ decoded : List Char,
      replaceChars badChar [replacement_char] decoded
        = decoded.map (fun c => if badChar c then replacement_char else c)) ∧
    decode_text ['A', 'Q', '=', '='] = [replacement_char] := by
  constructor
  · intro decoded
    induction decoded with
    | nil => rfl
    | cons a t ih =>
      rw [replaceChars_cons, List.map_cons, ih]
      split <;> simp
  · decide

/-- Claim C10: every character that `decode_display` can output is an
ASCII graphic character, the space, or the replacement character. -/
theorem c10_output_alphabet (text : List Char) (c : Char) (h : c ∈ decode_text text) :
    asciiGraphic c = true ∨ c = ' ' ∨ c = replacement_char :=
  decode_text_chars h

/-- Witness for C10 at the concrete input `"AQ=="`, whose display string
is the single replacement character. -/
theorem c10_output_alphabet_witness :
    asciiGraphic replacement_char = true ∨ replacement_char = ' ' ∨
      replacement_char = replacement_char :=
  c10_output_alphabet ['A', 'Q', '=', '='] replacement_char (by decide)

end Base64Decode
